import Mathlib

/-!
Verification of the trade-to-candle aggregation engine of the dex-data
repository.

The repository contains three evolutions of the same aggregation routine:
`chart.js` (`processSwapEvents`, `calculatePrice`), and two unnamed files
referred to here as `part_002` and `part_003`.  The embeddings below are
translated from those sources:

* `calculatePrice`   — `chart.js` lines 1380-1413 (identical text in
  `part_002` 1115-1148 and `part_003` 1622-1655);
* `bucketKeyMs`      — the grouping key `Math.floor(t / intervalMs) * intervalMs`
  of `chart.js` line 1118 / `part_003` line 1306;
* `processSwapEventsChart` — `chart.js` `processSwapEvents` (lines 1104-1203):
  iterates only the bucket keys that actually contain trades;
* `processSwapEvents3` — `part_003` `processSwapEvents` (lines 1292-1438):
  builds the complete timeline from the first trade's bucket to `now`'s
  bucket, forward-fills empty buckets, with a look-ahead branch when no
  previous close exists yet;
* `updateChartWithNewTrades` — `part_003` lines 2128-2166;
* `roundTimeToInterval2` — the interval alignment of `part_002`
  lines 789-812 (UTC-hour anchored, only the minutes within the hour are
  floored).

Machine numbers are modelled as rationals (ℚ); timestamps as integers in
epoch milliseconds.  JavaScript `null` is `Option.none`; the coercion
`null → 0` that `Math.max` / `Math.min` perform is `jsVal`.
-/

namespace DexData

/-- The four transfer amounts of a swap event, after the source's
`parseFloat(x) || 0` normalisation (missing / unparsable fields are 0). -/
structure SwapData where
  amount0In : ℚ
  amount0Out : ℚ
  amount1In : ℚ
  amount1Out : ℚ
deriving DecidableEq

/-- A trade event: UTC epoch-millisecond timestamp plus the swap amounts.
Identity fields (pair id, signer, tx hash) are carried through the source
unmodified and play no role in aggregation, so they are omitted. -/
structure Trade where
  timestamp : ℤ
  data : SwapData
deriving DecidableEq

/-- A candle as produced by `processSwapEvents`: `time` is in epoch seconds;
the four price fields are JavaScript numbers-or-null, hence `Option ℚ`.
(The source field `open` is a Lean keyword, so it is named `openP` here.) -/
structure Candle where
  time : ℤ
  openP : Option ℚ
  high : Option ℚ
  low : Option ℚ
  close : Option ℚ
  tradeCount : ℕ
deriving DecidableEq

/-- A volume histogram bar.  The source also attaches a colour string derived
from the candle direction and the DOM theme; that is rendering-only and is
not part of the data model here. -/
structure VolumeBar where
  time : ℤ
  value : ℚ
deriving DecidableEq

/-- `calculatePrice` of `chart.js` lines 1380-1413.
Base price: `amount1In / amount0Out` when `amount0Out > 0 && amount1In > 0`,
else `amount1Out / amount0In` when `amount0In > 0 && amount1Out > 0`,
else `null`.  When the inversion flag is set and the base price is defined,
the reciprocal `1 / price` is returned. -/
def calculatePrice (isInverted : Bool) (d : SwapData) : Option ℚ :=
  let base : Option ℚ :=
    if 0 < d.amount0Out ∧ 0 < d.amount1In then
      some (d.amount1In / d.amount0Out)
    else if 0 < d.amount0In ∧ 0 < d.amount1Out then
      some (d.amount1Out / d.amount0In)
    else
      none
  match base with
  | some p => if isInverted then some (1 / p) else some p
  | none => none

/-- The bucket key of `chart.js` line 1118 / `part_003` line 1306:
`Math.floor(t / intervalMs) * intervalMs` (floor division, matching
JavaScript `Math.floor` on the real quotient). -/
def bucketKeyMs (t ims : ℤ) : ℤ :=
  Int.fdiv t ims * ims

/-- Stable insertion into a timestamp-sorted list (helper for `sortT`). -/
def insertT (t : Trade) : List Trade → List Trade
  | [] => [t]
  | u :: us => if t.timestamp ≤ u.timestamp then t :: u :: us else u :: insertT t us

/-- The source's `tradeEvents.sort((a, b) => a.timestamp - b.timestamp)`:
a stable sort ascending by timestamp (Array.prototype.sort is stable). -/
def sortT : List Trade → List Trade
  | [] => []
  | t :: ts => insertT t (sortT ts)

/-- Collapse adjacent duplicates.  Applied to the (nondecreasing) bucket-key
list of the sorted trades this yields exactly
`Array.from(tradesByInterval.keys()).sort((a, b) => a - b)` of `chart.js`
line 1128: the distinct bucket keys in ascending order. -/
def uniqKeys : List ℤ → List ℤ
  | [] => []
  | [k] => [k]
  | k :: k2 :: ks => if k = k2 then uniqKeys (k2 :: ks) else k :: uniqKeys (k2 :: ks)

/-- JavaScript numeric coercion of a number-or-null: `Math.max(null, x)`
computes `max 0 x`, so `null` reads as `0` in the high/low updates. -/
def jsVal (x : Option ℚ) : ℚ := x.getD 0

/-- The single pass over a bucket's trades (`chart.js` lines 1154-1161 /
`part_003` lines 1352-1359): for each trade with a defined price, update
`high = Math.max(high, price)`, `low = Math.min(low, price)` and add
`amount1In + amount1Out` to the volume; trades with `null` price are
skipped entirely. -/
def foldHLV (inv : Bool) (init : Option ℚ × Option ℚ × ℚ) (trades : List Trade) :
    Option ℚ × Option ℚ × ℚ :=
  trades.foldl
    (fun acc t =>
      match calculatePrice inv t.data with
      | some p =>
          (some (max (jsVal acc.1) p), some (min (jsVal acc.2.1) p),
            acc.2.2 + (t.data.amount1In + t.data.amount1Out))
      | none => acc)
    init

/-- The per-bucket candle construction shared by `chart.js` lines 1146-1180
and `part_003` lines 1344-1385, for a non-empty bucket `t1 :: _`:
`open = previousClose ?? price(first)`, high/low/volume by `foldHLV`,
`close = price(last)`, `tradeCount = trades.length`.  Returns the candle,
the volume bar and the new `previousClose` (which is the — possibly
null — close). -/
def bucketStep (inv : Bool) (prev : Option ℚ) (time : ℤ) (trades : List Trade) :
    Candle × VolumeBar × Option ℚ :=
  let ts := Int.fdiv time 1000
  let openP : Option ℚ :=
    match prev with
    | some pc => some pc
    | none =>
        match trades.head? with
        | some t1 => calculatePrice inv t1.data
        | none => none
  let hlv := foldHLV inv (openP, openP, 0) trades
  let closeP : Option ℚ :=
    match trades.getLast? with
    | some tl => calculatePrice inv tl.data
    | none => none
  (⟨ts, openP, hlv.1, hlv.2.1, closeP, trades.length⟩, ⟨ts, hlv.2.2⟩, closeP)

/-- The bucket walk of `chart.js` lines 1142-1200: process the given bucket
keys in order, carrying `previousClose`.  A non-empty bucket produces a
candle via `bucketStep`; an empty bucket produces a flat forward-fill candle
when `previousClose` is non-null and nothing otherwise. -/
def processKeysChart (inv : Bool) (grouped : ℤ → List Trade) :
    Option ℚ → List ℤ → List Candle × List VolumeBar
  | _, [] => ([], [])
  | prev, k :: ks =>
    let trades := grouped k
    let ts := Int.fdiv k 1000
    match trades with
    | [] =>
        match prev with
        | some pc =>
            let rest := processKeysChart inv grouped (some pc) ks
            (⟨ts, some pc, some pc, some pc, some pc, 0⟩ :: rest.1, ⟨ts, 0⟩ :: rest.2)
        | none => processKeysChart inv grouped none ks
    | _ :: _ =>
        let step := bucketStep inv prev k trades
        let rest := processKeysChart inv grouped step.2.2 ks
        (step.1 :: rest.1, step.2.1 :: rest.2)

/-- Trades of the sorted list falling in bucket `k`.  The source groups the
(pre-sorted) trades into a `Map` keyed by bucket key, preserving encounter
order, so the group of `k` is exactly the timestamp-ordered sublist of
trades whose key is `k`. -/
def groupedOf (ims : ℤ) (sorted : List Trade) (k : ℤ) : List Trade :=
  sorted.filter (fun t => bucketKeyMs t.timestamp ims = k)

/-- `processSwapEvents` of `chart.js` (lines 1104-1203): sort the trades,
group them by bucket key, then walk the keys that contain trades (line 1128:
only the map's own keys, sorted ascending) carrying `previousClose`.
`m` is the interval width in minutes (`this.currentTimeframe.minutes`). -/
def processSwapEventsChart (inv : Bool) (m : ℕ) (tradeEvents : List Trade) :
    List Candle × List VolumeBar :=
  if tradeEvents = [] then ([], [])
  else
    let sorted := sortT tradeEvents
    let ims : ℤ := (m : ℤ) * 60000
    let keys := uniqKeys (sorted.map (fun t => bucketKeyMs t.timestamp ims))
    processKeysChart inv (groupedOf ims sorted) none keys

/-- The `for (let time = firstInterval; time <= currentInterval; time += intervalMs)`
loop of `part_003` lines 1323-1326 (only ever invoked with a positive step). -/
def timelineList (first last step : ℤ) : List ℤ :=
  if h : 0 < step ∧ first ≤ last then
    first :: timelineList (first + step) last step
  else []
termination_by (last + 1 - first).toNat
decreasing_by
  simp only [Int.lt_iff_add_one_le] at h
  omega

/-- The bucket walk of `part_003` lines 1340-1435: process the complete
timeline, carrying `previousClose`.  Non-empty buckets behave as in
`bucketStep`; an empty bucket with a previous close forward-fills a flat
candle; an empty bucket without one looks ahead to the first future bucket
containing trades, takes that bucket's first trade's price, and emits a flat
candle at that price (setting `previousClose`) when it is non-null — or
emits nothing at all otherwise. -/
def processTimeline3 (inv : Bool) (grouped : ℤ → List Trade) :
    Option ℚ → List ℤ → List Candle × List VolumeBar
  | _, [] => ([], [])
  | prev, time :: rest =>
    let trades := grouped time
    let ts := Int.fdiv time 1000
    match trades with
    | [] =>
        match prev with
        | some pc =>
            let r := processTimeline3 inv grouped (some pc) rest
            (⟨ts, some pc, some pc, some pc, some pc, 0⟩ :: r.1, ⟨ts, 0⟩ :: r.2)
        | none =>
            let fp : Option ℚ :=
              match rest.find? (fun t2 => !(grouped t2).isEmpty) with
              | some t2 =>
                  match (grouped t2).head? with
                  | some ft => calculatePrice inv ft.data
                  | none => none
              | none => none
            match fp with
            | some p =>
                let r := processTimeline3 inv grouped (some p) rest
                (⟨ts, some p, some p, some p, some p, 0⟩ :: r.1, ⟨ts, 0⟩ :: r.2)
            | none => processTimeline3 inv grouped none rest
    | _ :: _ =>
        let step := bucketStep inv prev time trades
        let r := processTimeline3 inv grouped step.2.2 rest
        (step.1 :: r.1, step.2.1 :: r.2)

/-- `processSwapEvents` of `part_003` (lines 1292-1438): sort the trades,
group by bucket key, build the complete timeline from the first trade's
bucket to `now`'s bucket, and walk it.  `now` makes the source's internal
`Date.now()` (line 1317) an explicit argument. -/
def processSwapEvents3 (inv : Bool) (m : ℕ) (now : ℤ) (tradeEvents : List Trade) :
    List Candle × List VolumeBar :=
  if tradeEvents = [] then ([], [])
  else
    let sorted := sortT tradeEvents
    let ims : ℤ := (m : ℤ) * 60000
    match sorted with
    | [] => ([], [])
    | t0 :: _ =>
        let firstInterval := bucketKeyMs t0.timestamp ims
        let currentInterval := bucketKeyMs now ims
        processTimeline3 inv (groupedOf ims sorted)
          none (timelineList firstInterval currentInterval ims)

/-- `updateChartWithNewTrades` of `part_003` lines 2128-2166: append the new
trades to the known ones, sort by timestamp (lines 2137-2140), copy and sort
again (line 2145), and re-run the full aggregation at the current instant. -/
def updateChartWithNewTrades (inv : Bool) (m : ℕ) (now : ℤ)
    (rawTrades newTrades : List Trade) : List Candle × List VolumeBar :=
  processSwapEvents3 inv m now (sortT (sortT (rawTrades ++ newTrades)))

/-- The interval alignment of `part_002` lines 789-812, in epoch-millisecond
arithmetic for a nonnegative timestamp: the UTC date and hour are kept
(`t - t % 3600000`), and only the minutes within the hour
(`getUTCMinutes() = t / 60000 % 60`) are floored to a multiple of the
interval width; seconds and milliseconds are zeroed. -/
def roundTimeToInterval2 (t m : ℤ) : ℤ :=
  t - t % 3600000 + t / 60000 % 60 / m * m * 60000

/-- The quote-leg volume that a group of trades contributes: the sum of
`amount1In + amount1Out` over exactly the trades whose price is defined
(the source's `if (price !== null)` guard). -/
def definedVolSum (inv : Bool) (ts : List Trade) : ℚ :=
  ((ts.filter (fun t => (calculatePrice inv t.data).isSome)).map
    (fun t => t.data.amount1In + t.data.amount1Out)).sum

/-- The defined prices of a trade list, in order. -/
def priceList (inv : Bool) (ts : List Trade) : List ℚ :=
  ts.filterMap (fun t => calculatePrice inv t.data)

/-- A candle with numeric (non-null) OHLC fields satisfying the OHLC bounds
`low ≤ open ≤ high` and `low ≤ close ≤ high`. -/
def candleBounded (c : Candle) : Prop :=
  ∃ o hi lo cl : ℚ, c.openP = some o ∧ c.high = some hi ∧ c.low = some lo ∧
    c.close = some cl ∧ lo ≤ o ∧ o ≤ hi ∧ lo ≤ cl ∧ cl ≤ hi

/-! ### Sorting lemmas -/

theorem mem_insertT {u t : Trade} {l : List Trade} :
    u ∈ insertT t l ↔ u = t ∨ u ∈ l := by
  induction l with
  | nil => simp [insertT]
  | cons v vs ih =>
      by_cases h : t.timestamp ≤ v.timestamp <;>
        simp [insertT, h, ih] <;> tauto

theorem mem_sortT {u : Trade} {l : List Trade} : u ∈ sortT l ↔ u ∈ l := by
  induction l with
  | nil => simp [sortT]
  | cons v vs ih => simp [sortT, mem_insertT, ih]

theorem insertT_ne_nil (t : Trade) (l : List Trade) : insertT t l ≠ [] := by
  cases l with
  | nil => simp [insertT]
  | cons v vs =>
      by_cases h : t.timestamp ≤ v.timestamp <;> simp [insertT, h]

theorem sortT_eq_nil_iff {l : List Trade} : sortT l = [] ↔ l = [] := by
  cases l with
  | nil => simp [sortT]
  | cons t ts => simp [sortT, insertT_ne_nil]

theorem pairwise_insertT {t : Trade} {l : List Trade}
    (h : l.Pairwise (fun a b => a.timestamp ≤ b.timestamp)) :
    (insertT t l).Pairwise (fun a b => a.timestamp ≤ b.timestamp) := by
  induction l with
  | nil => simp [insertT]
  | cons v vs ih =>
      rcases List.pairwise_cons.mp h with ⟨hv, hvs⟩
      by_cases hle : t.timestamp ≤ v.timestamp
      · simp only [insertT, if_pos hle]
        refine List.pairwise_cons.mpr ⟨?_, h⟩
        intro b hb
        rcases List.mem_cons.mp hb with rfl | hb
        · exact hle
        · exact le_trans hle (hv b hb)
      · simp only [insertT, if_neg hle]
        refine List.pairwise_cons.mpr ⟨?_, ih hvs⟩
        intro b hb
        rcases mem_insertT.mp hb with rfl | hb
        · exact le_of_not_le hle
        · exact hv b hb

theorem pairwise_sortT (l : List Trade) :
    (sortT l).Pairwise (fun a b => a.timestamp ≤ b.timestamp) := by
  induction l with
  | nil => simp [sortT]
  | cons t ts ih => exact pairwise_insertT ih

theorem sortT_eq_of_pairwise {l : List Trade}
    (h : l.Pairwise (fun a b => a.timestamp ≤ b.timestamp)) : sortT l = l := by
  induction l with
  | nil => rfl
  | cons t ts ih =>
      rcases List.pairwise_cons.mp h with ⟨ht, hts⟩
      have : sortT (t :: ts) = insertT t (sortT ts) := rfl
      rw [this, ih hts]
      cases ts with
      | nil => rfl
      | cons v vs => simp [insertT, ht v (by simp)]

theorem sortT_idem (l : List Trade) : sortT (sortT l) = sortT l :=
  sortT_eq_of_pairwise (pairwise_sortT l)

/-! ### Price lemmas -/

theorem calculatePrice_false_pos {d : SwapData} {p : ℚ}
    (h : calculatePrice false d = some p) : 0 < p := by
  unfold calculatePrice at h
  by_cases h1 : 0 < d.amount0Out ∧ 0 < d.amount1In
  · simp only [if_pos h1] at h
    obtain rfl : d.amount1In / d.amount0Out = p := by simpa using h
    exact div_pos h1.2 h1.1
  · by_cases h2 : 0 < d.amount0In ∧ 0 < d.amount1Out
    · simp only [if_neg h1, if_pos h2] at h
      obtain rfl : d.amount1Out / d.amount0In = p := by simpa using h
      exact div_pos h2.2 h2.1
    · simp [if_neg h1, if_neg h2] at h

theorem calculatePrice_true_eq (d : SwapData) :
    calculatePrice true d = (calculatePrice false d).map (fun p => 1 / p) := by
  unfold calculatePrice
  by_cases h1 : 0 < d.amount0Out ∧ 0 < d.amount1In
  · simp [if_pos h1]
  · by_cases h2 : 0 < d.amount0In ∧ 0 < d.amount1Out <;>
      simp [if_neg h1, h2]

theorem calculatePrice_isSome_of_false {d : SwapData} (inv : Bool)
    (h : (calculatePrice false d).isSome) : (calculatePrice inv d).isSome := by
  cases inv
  · exact h
  · rw [calculatePrice_true_eq]
    simpa using h

theorem calculatePrice_pos {inv : Bool} {d : SwapData} {p : ℚ}
    (h : calculatePrice inv d = some p) : 0 < p := by
  cases inv
  · exact calculatePrice_false_pos h
  · rw [calculatePrice_true_eq] at h
    rcases Option.map_eq_some'.mp h with ⟨q, hq, rfl⟩
    have := calculatePrice_false_pos hq
    positivity

/-! ### Fold characterisation lemmas -/

theorem definedVolSum_cons (inv : Bool) (t : Trade) (tr : List Trade) :
    definedVolSum inv (t :: tr) =
      (if (calculatePrice inv t.data).isSome then
        t.data.amount1In + t.data.amount1Out else 0) + definedVolSum inv tr := by
  simp only [definedVolSum, List.filter_cons]
  split <;> simp

theorem foldHLV_cons (inv : Bool) (init : Option ℚ × Option ℚ × ℚ)
    (t : Trade) (tr : List Trade) :
    foldHLV inv init (t :: tr) =
      foldHLV inv
        (match calculatePrice inv t.data with
          | some p =>
              (some (max (jsVal init.1) p), some (min (jsVal init.2.1) p),
                init.2.2 + (t.data.amount1In + t.data.amount1Out))
          | none => init) tr := rfl

theorem foldHLV_vol (inv : Bool) (ts : List Trade) :
    ∀ hl : Option ℚ × Option ℚ × ℚ,
      (foldHLV inv hl ts).2.2 = hl.2.2 + definedVolSum inv ts := by
  induction ts with
  | nil => intro hl; simp [foldHLV, definedVolSum]
  | cons t tr ih =>
      intro hl
      obtain ⟨h0, l0, v0⟩ := hl
      rw [foldHLV_cons, definedVolSum_cons]
      rcases hp : calculatePrice inv t.data with _ | p
      · simpa [hp] using ih (h0, l0, v0)
      · simp only [hp]
        rw [ih]
        simp only [hp, Option.isSome_some, if_true]
        ring

theorem foldHLV_defined (inv : Bool) (ts : List Trade) :
    ∀ h0 l0 : ℚ, ∀ v0 : ℚ,
      foldHLV inv (some h0, some l0, v0) ts =
        (some ((priceList inv ts).foldl max h0),
          some ((priceList inv ts).foldl min l0),
          v0 + definedVolSum inv ts) := by
  induction ts with
  | nil => intro h0 l0 v0; simp [foldHLV, priceList, definedVolSum]
  | cons t tr ih =>
      intro h0 l0 v0
      rw [foldHLV_cons, definedVolSum_cons]
      rcases hp : calculatePrice inv t.data with _ | p
      · simpa [priceList, List.filterMap_cons, hp] using ih h0 l0 v0
      · simp only [hp, jsVal, Option.getD_some]
        rw [ih (max h0 p) (min l0 p) (v0 + (t.data.amount1In + t.data.amount1Out))]
        simp only [priceList, List.filterMap_cons, hp, Option.isSome_some, if_true,
          List.foldl_cons]
        refine Prod.ext rfl (Prod.ext rfl ?_)
        simp only
        ring

theorem le_foldl_max (b : ℚ) (P : List ℚ) : b ≤ P.foldl max b := by
  induction P generalizing b with
  | nil => simp
  | cons p ps ih => exact le_trans (le_max_left b p) (by simpa using ih (max b p))

theorem foldl_min_le (b : ℚ) (P : List ℚ) : P.foldl min b ≤ b := by
  induction P generalizing b with
  | nil => simp
  | cons p ps ih => exact le_trans (by simpa using ih (min b p)) (min_le_left b p)

theorem mem_le_foldl_max {x : ℚ} {P : List ℚ} (b : ℚ) (hx : x ∈ P) :
    x ≤ P.foldl max b := by
  induction P generalizing b with
  | nil => simp at hx
  | cons p ps ih =>
      rcases List.mem_cons.mp hx with rfl | hx
      · exact le_trans (le_max_right b x) (le_foldl_max _ _)
      · simpa using ih (max b p) hx

theorem foldl_min_le_mem {x : ℚ} {P : List ℚ} (b : ℚ) (hx : x ∈ P) :
    P.foldl min b ≤ x := by
  induction P generalizing b with
  | nil => simp at hx
  | cons p ps ih =>
      rcases List.mem_cons.mp hx with rfl | hx
      · simp only [List.foldl_cons]
        exact le_trans (foldl_min_le (min b x) ps) (min_le_right b x)
      · simpa using ih (min b p) hx

theorem foldl_max_pos {b : ℚ} (hb : 0 < b) (P : List ℚ) : 0 < P.foldl max b :=
  lt_of_lt_of_le hb (le_foldl_max b P)

theorem foldl_min_pos {b : ℚ} (hb : 0 < b) {P : List ℚ}
    (hP : ∀ p ∈ P, 0 < p) : 0 < P.foldl min b := by
  induction P generalizing b with
  | nil => simpa
  | cons p ps ih =>
      have hp := hP p (by simp)
      exact ih (lt_min hb hp) (fun q hq => hP q (by simp [hq]))

theorem one_div_min_eq {b p : ℚ} (hb : 0 < b) (hp : 0 < p) :
    1 / min b p = max (1 / b) (1 / p) := by
  rcases le_total b p with h | h
  · rw [min_eq_left h, max_eq_left (one_div_le_one_div_of_le hb h)]
  · rw [min_eq_right h, max_eq_right (one_div_le_one_div_of_le hp h)]

theorem one_div_max_eq {b p : ℚ} (hb : 0 < b) (hp : 0 < p) :
    1 / max b p = min (1 / b) (1 / p) := by
  rcases le_total b p with h | h
  · rw [max_eq_right h, min_eq_right (one_div_le_one_div_of_le hb h)]
  · rw [max_eq_left h, min_eq_left (one_div_le_one_div_of_le hp h)]

theorem foldl_max_inv_eq {b : ℚ} (hb : 0 < b) {P : List ℚ}
    (hP : ∀ p ∈ P, 0 < p) :
    (P.map (fun p => 1 / p)).foldl max (1 / b) = 1 / P.foldl min b := by
  induction P generalizing b with
  | nil => simp
  | cons p ps ih =>
      have hp := hP p (by simp)
      have hmin := one_div_min_eq hb hp
      simpa [hmin] using ih (lt_min hb hp) (fun q hq => hP q (by simp [hq]))

theorem foldl_min_inv_eq {b : ℚ} (hb : 0 < b) {P : List ℚ}
    (hP : ∀ p ∈ P, 0 < p) :
    (P.map (fun p => 1 / p)).foldl min (1 / b) = 1 / P.foldl max b := by
  induction P generalizing b with
  | nil => simp
  | cons p ps ih =>
      have hp := hP p (by simp)
      have hmax := one_div_max_eq hb hp
      simpa [hmax] using ih (lt_of_lt_of_le hb (le_max_left b p))
        (fun q hq => hP q (by simp [hq]))

theorem priceList_true (ts : List Trade) :
    priceList true ts = (priceList false ts).map (fun p => 1 / p) := by
  induction ts with
  | nil => simp [priceList]
  | cons t tr ih =>
      simp only [priceList, List.filterMap_cons] at *
      rw [calculatePrice_true_eq]
      rcases hp : calculatePrice false t.data with _ | p <;> simp [hp, ih]

theorem priceList_pos {ts : List Trade} {p : ℚ} (hp : p ∈ priceList false ts) :
    0 < p := by
  rcases List.mem_filterMap.mp hp with ⟨t, _, ht⟩
  exact calculatePrice_false_pos ht

theorem processSwapEvents3_sortT (inv : Bool) (m : ℕ) (now : ℤ) (l : List Trade) :
    processSwapEvents3 inv m now (sortT l) = processSwapEvents3 inv m now l := by
  by_cases hl : l = []
  · subst hl; rfl
  · have hs : sortT l ≠ [] := fun h => hl (sortT_eq_nil_iff.mp h)
    unfold processSwapEvents3
    rw [if_neg hl, if_neg hs, sortT_idem]

/-! ### Claim theorems: live merge, price calculator, bucketer, determinism -/

/-- C4: folding a later batch into the known trade set (append, stable re-sort
ascending by timestamp, as `updateChartWithNewTrades` does) and re-running
the aggregation at `now2` yields exactly the same candle and volume
sequences as a single cold full aggregation of the union at `now2`. -/
theorem live_merge_equiv_full_rebuild (inv : Bool) (m : ℕ) (now2 : ℤ)
    (rawTrades newTrades : List Trade) :
    updateChartWithNewTrades inv m now2 rawTrades newTrades =
      processSwapEvents3 inv m now2 (rawTrades ++ newTrades) := by
  unfold updateChartWithNewTrades
  rw [sortT_idem, processSwapEvents3_sortT]

/-- C6: the derived base price is `amount1In/amount0Out` when
`amount0Out > 0 && amount1In > 0`, else `amount1Out/amount0In` when
`amount0In > 0 && amount1Out > 0`, else undefined; under inversion a defined
base price is returned as its reciprocal. -/
theorem calculatePrice_spec (d : SwapData) :
    (0 < d.amount0Out → 0 < d.amount1In →
      calculatePrice false d = some (d.amount1In / d.amount0Out)) ∧
    (¬(0 < d.amount0Out ∧ 0 < d.amount1In) → 0 < d.amount0In → 0 < d.amount1Out →
      calculatePrice false d = some (d.amount1Out / d.amount0In)) ∧
    (¬(0 < d.amount0Out ∧ 0 < d.amount1In) → ¬(0 < d.amount0In ∧ 0 < d.amount1Out) →
      calculatePrice false d = none) ∧
    (∀ p : ℚ, calculatePrice false d = some p → calculatePrice true d = some (1 / p)) := by
  refine ⟨?_, ?_, ?_, ?_⟩
  · intro h1 h2
    simp [calculatePrice, And.intro h1 h2]
  · intro h1 h2 h3
    simp [calculatePrice, h1, And.intro h2 h3]
  · intro h1 h2
    simp [calculatePrice, h1, h2]
  · intro p hp
    rw [calculatePrice_true_eq, hp]
    rfl

/-- Witness for C6 at a concrete trade: `amount0Out = 10`, `amount1In = 100`
gives base price `10` and inverted price `1/10`. -/
theorem calculatePrice_spec_witness :
    (0 : ℚ) < 10 ∧ (0 : ℚ) < 100 ∧
      calculatePrice false ⟨0, 10, 100, 0⟩ = some 10 ∧
      calculatePrice true ⟨0, 10, 100, 0⟩ = some (1 / 10) := by
  have h1 : (0 : ℚ) < 10 := by norm_num
  have h2 : (0 : ℚ) < 100 := by norm_num
  have hbase := (calculatePrice_spec ⟨0, 10, 100, 0⟩).1 h1 h2
  have hbase' : calculatePrice false ⟨0, 10, 100, 0⟩ = some 10 := by
    rw [hbase]; norm_num
  have hinv := (calculatePrice_spec ⟨0, 10, 100, 0⟩).2.2.2 10 hbase'
  exact ⟨h1, h2, hbase', hinv⟩

/-- C7 (amended, the `chart.js`/`part_003` bucketer): the bucket key is the
pure epoch floor `Math.floor(t / intervalMs) * intervalMs`; it is a multiple
of the interval width and brackets `t` from below — pure UTC-epoch
alignment, for every width including 240 and 1440 minutes. -/
theorem bucketKey_epoch_aligned (t : ℤ) (m : ℕ) (hm : 0 < m) :
    bucketKeyMs t ((m : ℤ) * 60000) = Int.fdiv t ((m : ℤ) * 60000) * ((m : ℤ) * 60000) ∧
    ((m : ℤ) * 60000) ∣ bucketKeyMs t ((m : ℤ) * 60000) ∧
    bucketKeyMs t ((m : ℤ) * 60000) ≤ t ∧
    t < bucketKeyMs t ((m : ℤ) * 60000) + (m : ℤ) * 60000 := by
  set w : ℤ := (m : ℤ) * 60000 with hw
  have hwpos : 0 < w := by positivity
  have hfd : Int.fdiv t w = t / w := Int.fdiv_eq_ediv t (le_of_lt hwpos)
  refine ⟨rfl, Dvd.intro _ (mul_comm _ _), ?_, ?_⟩
  · rw [bucketKeyMs, hfd]
    exact Int.ediv_mul_le t (ne_of_gt hwpos)
  · rw [bucketKeyMs, hfd]
    have := Int.lt_ediv_add_one_mul_self t hwpos
    linarith [this]

/-- Witness for C7's amended theorem at `t = 5400000` (01:30 UTC),
`m = 240`: the bucket key is `0`. -/
theorem bucketKey_epoch_aligned_witness :
    0 < 240 ∧ bucketKeyMs 5400000 ((240 : ℕ) * 60000 : ℤ) = 0 ∧
      ((240 : ℤ) * 60000) ∣ bucketKeyMs 5400000 ((240 : ℕ) * 60000 : ℤ) := by
  refine ⟨by norm_num, by decide, ?_⟩
  have h := (bucketKey_epoch_aligned 5400000 240 (by norm_num)).2.1
  exact_mod_cast h

/-- C7 counterexample: `part_002`'s interval alignment (cited at its lines
789-812) keeps the UTC hour and floors only the minutes within the hour, so
for the 240-minute width the timestamp 01:30 UTC (5400000 ms) is aligned to
01:00 (3600000 ms) — not an epoch multiple of the 240-minute width, and not
the epoch floor `0` that the claim's formula prescribes. -/
theorem part2_alignment_not_epoch :
    roundTimeToInterval2 5400000 240 = 3600000 ∧
    bucketKeyMs 5400000 (240 * 60000) = 0 ∧
    ¬ ((240 * 60000 : ℤ) ∣ 3600000) ∧
    roundTimeToInterval2 5400000 240 ≠ bucketKeyMs 5400000 (240 * 60000) := by
  refine ⟨by decide, by decide, ?_, by decide⟩
  intro h
  omega

/-- C8: the aggregation is deterministic and pure — with `Date.now()` made
the explicit `now` argument, the output of `processSwapEvents3` depends on
nothing but the trade set, interval width, inversion flag and `now`; two
calls with identical arguments yield identical output. -/
theorem processSwapEvents3_deterministic
    (inv inv' : Bool) (m m' : ℕ) (now now' : ℤ) (trades trades' : List Trade)
    (h1 : inv = inv') (h2 : m = m') (h3 : now = now') (h4 : trades = trades') :
    processSwapEvents3 inv m now trades = processSwapEvents3 inv' m' now' trades' := by
  rw [h1, h2, h3, h4]

/-- Witness for C8 at concrete arguments. -/
theorem processSwapEvents3_deterministic_witness :
    processSwapEvents3 false 60 5400000 [⟨300000, ⟨0, 10, 100, 0⟩⟩] =
      processSwapEvents3 false 60 5400000 [⟨300000, ⟨0, 10, 100, 0⟩⟩] :=
  processSwapEvents3_deterministic false false 60 60 5400000 5400000
    [⟨300000, ⟨0, 10, 100, 0⟩⟩] [⟨300000, ⟨0, 10, 100, 0⟩⟩] rfl rfl rfl rfl

/-- C10: the price calculation cannot produce an infinite value under
inversion: whenever the inverted price is defined, it is the reciprocal of a
defined and nonzero (indeed positive) base price — the guard `price !== null`
together with both amounts being strictly positive rules out division by
zero. -/
theorem inverted_price_no_infinity (d : SwapData) (p : ℚ)
    (h : calculatePrice true d = some p) :
    ∃ q : ℚ, calculatePrice false d = some q ∧ q ≠ 0 ∧ p = 1 / q ∧ 0 < p := by
  rw [calculatePrice_true_eq] at h
  rcases Option.map_eq_some'.mp h with ⟨q, hq, rfl⟩
  have hqpos := calculatePrice_false_pos hq
  exact ⟨q, hq, ne_of_gt hqpos, rfl, by positivity⟩

/-- Witness for C10 at a concrete trade with base price `10`. -/
theorem inverted_price_no_infinity_witness :
    calculatePrice true ⟨0, 10, 100, 0⟩ = some (1 / 10) ∧
      ∃ q : ℚ, calculatePrice false ⟨0, 10, 100, 0⟩ = some q ∧ q ≠ 0 ∧
        (1 : ℚ) / 10 = 1 / q ∧ 0 < (1 : ℚ) / 10 := by
  have h : calculatePrice true ⟨0, 10, 100, 0⟩ = some (1 / 10) := by
    norm_num [calculatePrice]
  exact ⟨h, inverted_price_no_infinity ⟨0, 10, 100, 0⟩ (1 / 10) h⟩

/-! ### Bucket-walk characterisation (chart.js evolution) -/

theorem mem_uniqKeys : ∀ {l : List ℤ} {k : ℤ}, k ∈ uniqKeys l → k ∈ l
  | [], k, h => by simp [uniqKeys] at h
  | [_], k, h => by simpa [uniqKeys] using h
  | k0 :: k1 :: ks, k, h => by
      by_cases he : k0 = k1
      · have h2 : k ∈ uniqKeys (k1 :: ks) := by simpa [uniqKeys, he] using h
        have := mem_uniqKeys h2
        simp only [List.mem_cons] at this ⊢
        tauto
      · have h2 : k = k0 ∨ k ∈ uniqKeys (k1 :: ks) := by
          simpa [uniqKeys, he] using h
        rcases h2 with rfl | h2
        · simp
        · have := mem_uniqKeys h2
          simp only [List.mem_cons] at this ⊢
          tauto

theorem groupedOf_ne_nil_of_mem_keys {ims : ℤ} {sorted : List Trade} {k : ℤ}
    (h : k ∈ uniqKeys (sorted.map (fun t => bucketKeyMs t.timestamp ims))) :
    groupedOf ims sorted k ≠ [] := by
  rcases List.mem_map.mp (mem_uniqKeys h) with ⟨t, ht, hk⟩
  intro hnil
  have hmem : t ∈ groupedOf ims sorted k :=
    List.mem_filter.mpr ⟨ht, by simp [hk]⟩
  rw [hnil] at hmem
  simp at hmem

/-- One emitted candle and volume bar per processed bucket key, with
`tradeCount` counting all trades of the bucket, `close` the (possibly
undefined) price of the bucket's last trade, and the volume value the
quote-leg sum over exactly the price-defined trades. -/
theorem processKeysChart_char (inv : Bool) (grouped : ℤ → List Trade) :
    ∀ keys : List ℤ, ∀ prev : Option ℚ,
      (∀ k ∈ keys, grouped k ≠ []) →
      List.Forall₂ (fun (k : ℤ) (c : Candle) =>
          c.time = Int.fdiv k 1000 ∧
          c.tradeCount = (grouped k).length ∧
          c.close = (match (grouped k).getLast? with
            | some tl => calculatePrice inv tl.data
            | none => none))
        keys (processKeysChart inv grouped prev keys).1 ∧
      List.Forall₂ (fun (k : ℤ) (v : VolumeBar) =>
          v.time = Int.fdiv k 1000 ∧ v.value = definedVolSum inv (grouped k))
        keys (processKeysChart inv grouped prev keys).2 := by
  intro keys
  induction keys with
  | nil => intro prev _; exact ⟨List.Forall₂.nil, List.Forall₂.nil⟩
  | cons k ks ih =>
      intro prev hne
      have hk : grouped k ≠ [] := hne k (by simp)
      rcases hg : grouped k with _ | ⟨t1, tr⟩
      · exact absurd hg hk
      · have hks : ∀ k' ∈ ks, grouped k' ≠ [] := fun k' hk' => hne k' (by simp [hk'])
        have hrec := ih (bucketStep inv prev k (grouped k)).2.2 hks
        have hstep : processKeysChart inv grouped prev (k :: ks) =
            ((bucketStep inv prev k (grouped k)).1 ::
              (processKeysChart inv grouped (bucketStep inv prev k (grouped k)).2.2 ks).1,
              (bucketStep inv prev k (grouped k)).2.1 ::
              (processKeysChart inv grouped (bucketStep inv prev k (grouped k)).2.2 ks).2) := by
          simp only [processKeysChart, hg]
        rw [hstep]
        constructor
        · refine List.Forall₂.cons ?_ hrec.1
          refine ⟨rfl, rfl, rfl⟩
        · refine List.Forall₂.cons ?_ hrec.2
          refine ⟨rfl, ?_⟩
          show (foldHLV inv (_, _, 0) (grouped k)).2.2 = definedVolSum inv (grouped k)
          rw [foldHLV_vol]
          simp

/-- C5 (amended): malformed (price-undefined) trades are NOT dropped before
bucketing in the `chart.js` aggregation — they are bucketed with the rest,
they count toward the bucket's `tradeCount`, and the bucket's `close` is the
price of the bucket's chronologically last trade, which is undefined when
that trade is malformed.  They do contribute nothing to the volume value
(the quote-leg sum ranges over exactly the price-defined trades), and their
presence never aborts aggregation of the remaining trades (the aggregation
is total and still emits one candle and one volume bar per occupied
bucket). -/
theorem malformed_trades_in_buckets (inv : Bool) (m : ℕ) (tradeEvents : List Trade) :
    List.Forall₂ (fun (k : ℤ) (c : Candle) =>
        c.tradeCount = (groupedOf ((m : ℤ) * 60000) (sortT tradeEvents) k).length ∧
        c.close = (match (groupedOf ((m : ℤ) * 60000) (sortT tradeEvents) k).getLast? with
          | some tl => calculatePrice inv tl.data
          | none => none))
      (uniqKeys ((sortT tradeEvents).map
        (fun t => bucketKeyMs t.timestamp ((m : ℤ) * 60000))))
      (processSwapEventsChart inv m tradeEvents).1 ∧
    List.Forall₂ (fun (k : ℤ) (v : VolumeBar) =>
        v.value = definedVolSum inv (groupedOf ((m : ℤ) * 60000) (sortT tradeEvents) k))
      (uniqKeys ((sortT tradeEvents).map
        (fun t => bucketKeyMs t.timestamp ((m : ℤ) * 60000))))
      (processSwapEventsChart inv m tradeEvents).2 := by
  by_cases hnil : tradeEvents = []
  · subst hnil
    exact ⟨List.Forall₂.nil, List.Forall₂.nil⟩
  · have hchar := processKeysChart_char inv
      (groupedOf ((m : ℤ) * 60000) (sortT tradeEvents))
      (uniqKeys ((sortT tradeEvents).map
        (fun t => bucketKeyMs t.timestamp ((m : ℤ) * 60000))))
      none
      (fun k hk => groupedOf_ne_nil_of_mem_keys hk)
    have hout : processSwapEventsChart inv m tradeEvents =
        processKeysChart inv (groupedOf ((m : ℤ) * 60000) (sortT tradeEvents)) none
          (uniqKeys ((sortT tradeEvents).map
            (fun t => bucketKeyMs t.timestamp ((m : ℤ) * 60000)))) := by
      simp only [processSwapEventsChart, if_neg hnil]
    rw [hout]
    exact ⟨(hchar.1).imp (fun _ _ h => ⟨h.2.1, h.2.2⟩),
      (hchar.2).imp (fun _ _ h => h.2)⟩

/-- C5 counterexample: bucket containing a price-defined trade (price `2`)
followed by a malformed trade — `chart.js` emits a candle with
`tradeCount = 2` (the malformed trade is counted) and `close = null`
(not the price `2` of the last price-defined trade). -/
theorem malformed_trade_counted_cex :
    (processSwapEventsChart false 5
        [⟨0, ⟨0, 1, 2, 0⟩⟩, ⟨100000, ⟨0, 0, 0, 0⟩⟩]).1.map
        (fun c => (c.tradeCount, c.close)) = [(2, none)] ∧
    calculatePrice false (⟨0, 0, 0, 0⟩ : SwapData) = none ∧
    calculatePrice false (⟨0, 1, 2, 0⟩ : SwapData) = some 2 := by
  refine ⟨?_, by norm_num [calculatePrice], by norm_num [calculatePrice]⟩
  norm_num [processSwapEventsChart, processKeysChart, bucketStep, foldHLV, sortT,
    insertT, uniqKeys, groupedOf, bucketKeyMs, calculatePrice, jsVal, Int.fdiv,
    List.cons_ne_nil]

/-! ### Continuity and OHLC bounds (chart.js evolution) -/

theorem processKeysChart_cons_ne (inv : Bool) (grouped : ℤ → List Trade)
    (prev : Option ℚ) (k : ℤ) (ks : List ℤ) (h : grouped k ≠ []) :
    processKeysChart inv grouped prev (k :: ks) =
      ((bucketStep inv prev k (grouped k)).1 ::
        (processKeysChart inv grouped (bucketStep inv prev k (grouped k)).2.2 ks).1,
        (bucketStep inv prev k (grouped k)).2.1 ::
        (processKeysChart inv grouped (bucketStep inv prev k (grouped k)).2.2 ks).2) := by
  rcases hg : grouped k with _ | ⟨t1, tr⟩
  · exact absurd hg h
  · simp only [processKeysChart, hg]

theorem processKeysChart_cons_nil_some (inv : Bool) (grouped : ℤ → List Trade)
    (pc : ℚ) (k : ℤ) (ks : List ℤ) (h : grouped k = []) :
    processKeysChart inv grouped (some pc) (k :: ks) =
      (⟨Int.fdiv k 1000, some pc, some pc, some pc, some pc, 0⟩ ::
        (processKeysChart inv grouped (some pc) ks).1,
        ⟨Int.fdiv k 1000, 0⟩ :: (processKeysChart inv grouped (some pc) ks).2) := by
  simp only [processKeysChart, h]

theorem processKeysChart_cons_nil_none (inv : Bool) (grouped : ℤ → List Trade)
    (k : ℤ) (ks : List ℤ) (h : grouped k = []) :
    processKeysChart inv grouped none (k :: ks) =
      processKeysChart inv grouped none ks := by
  simp only [processKeysChart, h]

theorem bucketStep_close_defined {inv : Bool} {grouped : ℤ → List Trade}
    (hdef : ∀ k, ∀ t ∈ grouped k, (calculatePrice inv t.data).isSome)
    {k : ℤ} (hne : grouped k ≠ []) (prev : Option ℚ) :
    ∃ cl : ℚ, (bucketStep inv prev k (grouped k)).2.2 = some cl ∧
      (bucketStep inv prev k (grouped k)).1.close = some cl := by
  obtain ⟨tl, htl⟩ := Option.isSome_iff_exists.mp (List.getLast?_isSome.mpr hne)
  obtain ⟨cl, hcl⟩ :=
    Option.isSome_iff_exists.mp (hdef k tl (List.mem_of_getLast?_eq_some htl))
  refine ⟨cl, ?_, ?_⟩ <;> simp only [bucketStep, htl, hcl]

theorem processKeysChart_chain_some (inv : Bool) (grouped : ℤ → List Trade)
    (hdef : ∀ k, ∀ t ∈ grouped k, (calculatePrice inv t.data).isSome) :
    ∀ keys : List ℤ, ∀ pc : ℚ,
      List.Chain' (fun a b => b.openP = a.close)
        (processKeysChart inv grouped (some pc) keys).1 ∧
      (∀ c ∈ ((processKeysChart inv grouped (some pc) keys).1).head?,
        c.openP = some pc) := by
  intro keys
  induction keys with
  | nil =>
      intro pc
      exact ⟨by simp [processKeysChart], by simp [processKeysChart]⟩
  | cons k ks ih =>
      intro pc
      rcases hg : grouped k with _ | ⟨t1, tr⟩
      · rw [processKeysChart_cons_nil_some inv grouped pc k ks hg]
        refine ⟨List.chain'_cons'.mpr ⟨?_, (ih pc).1⟩, ?_⟩
        · intro b hb
          exact (ih pc).2 b hb
        · intro c hc
          simp only [List.head?_cons, Option.mem_some_iff] at hc
          subst hc
          rfl
      · have hne : grouped k ≠ [] := by rw [hg]; simp
        rw [processKeysChart_cons_ne inv grouped (some pc) k ks hne]
        obtain ⟨cl, hclprev, hclcand⟩ := bucketStep_close_defined hdef hne (some pc)
        rw [hclprev]
        refine ⟨List.chain'_cons'.mpr ⟨?_, (ih cl).1⟩, ?_⟩
        · intro b hb
          rw [(ih cl).2 b hb, hclcand]
        · intro c hc
          simp only [List.head?_cons, Option.mem_some_iff] at hc
          subst hc
          rfl

theorem processKeysChart_chain_none (inv : Bool) (grouped : ℤ → List Trade)
    (hdef : ∀ k, ∀ t ∈ grouped k, (calculatePrice inv t.data).isSome) :
    ∀ keys : List ℤ,
      List.Chain' (fun a b => b.openP = a.close)
        (processKeysChart inv grouped none keys).1 := by
  intro keys
  induction keys with
  | nil => simp [processKeysChart]
  | cons k ks ih =>
      rcases hg : grouped k with _ | ⟨t1, tr⟩
      · rw [processKeysChart_cons_nil_none inv grouped k ks hg]
        exact ih
      · have hne : grouped k ≠ [] := by rw [hg]; simp
        rw [processKeysChart_cons_ne inv grouped none k ks hne]
        obtain ⟨cl, hclprev, hclcand⟩ := bucketStep_close_defined hdef hne none
        rw [hclprev]
        refine List.chain'_cons'.mpr ⟨?_, (processKeysChart_chain_some inv grouped hdef ks cl).1⟩
        intro b hb
        rw [(processKeysChart_chain_some inv grouped hdef ks cl).2 b hb, hclcand]

theorem groupedOf_defined {inv : Bool} {tradeEvents : List Trade}
    (h : ∀ t ∈ tradeEvents, (calculatePrice false t.data).isSome) (ims : ℤ) :
    ∀ k, ∀ t ∈ groupedOf ims (sortT tradeEvents) k, (calculatePrice inv t.data).isSome := by
  intro k t ht
  have hmem : t ∈ sortT tradeEvents := (List.mem_filter.mp ht).1
  exact calculatePrice_isSome_of_false inv (h t (mem_sortT.mp hmem))

/-- C3 (amended): when every trade has a defined price, each non-first
candle's open equals the previous candle's close, across both trade-bearing
and forward-filled buckets. -/
theorem continuity_chain (inv : Bool) (m : ℕ) (tradeEvents : List Trade)
    (h : ∀ t ∈ tradeEvents, (calculatePrice false t.data).isSome) :
    List.Chain' (fun a b => b.openP = a.close)
      (processSwapEventsChart inv m tradeEvents).1 := by
  by_cases hnil : tradeEvents = []
  · subst hnil
    simp [processSwapEventsChart]
  · have hout : processSwapEventsChart inv m tradeEvents =
        processKeysChart inv (groupedOf ((m : ℤ) * 60000) (sortT tradeEvents)) none
          (uniqKeys ((sortT tradeEvents).map
            (fun t => bucketKeyMs t.timestamp ((m : ℤ) * 60000)))) := by
      simp only [processSwapEventsChart, if_neg hnil]
    rw [hout]
    exact processKeysChart_chain_none inv _ (groupedOf_defined h _) _

/-- Witness for C3's amended theorem: two price-defined trades in adjacent
5-minute buckets; the second candle opens at the first candle's close. -/
theorem continuity_chain_witness :
    (∀ t ∈ [(⟨0, ⟨0, 1, 10, 0⟩⟩ : Trade), ⟨400000, ⟨0, 1, 12, 0⟩⟩],
      (calculatePrice false t.data).isSome) ∧
    List.Chain' (fun a b => b.openP = a.close)
      (processSwapEventsChart false 5
        [⟨0, ⟨0, 1, 10, 0⟩⟩, ⟨400000, ⟨0, 1, 12, 0⟩⟩]).1 := by
  constructor
  · intro t ht
    rcases List.mem_cons.mp ht with rfl | ht
    · norm_num [calculatePrice]
    · rcases List.mem_cons.mp ht with rfl | ht
      · norm_num [calculatePrice]
      · simp at ht
  · refine continuity_chain false 5 _ ?_
    intro t ht
    rcases List.mem_cons.mp ht with rfl | ht
    · norm_num [calculatePrice]
    · rcases List.mem_cons.mp ht with rfl | ht
      · norm_num [calculatePrice]
      · simp at ht

/-- C3 counterexample: when a bucket's last trade is malformed, the emitted
close is `null`, and the next candle opens at its own first trade's price —
`candle[1].open = some 7` while `candle[0].close = none`, violating
continuity as stated. -/
theorem continuity_cex :
    (processSwapEventsChart false 5
        [⟨0, ⟨0, 1, 2, 0⟩⟩, ⟨100000, ⟨0, 0, 0, 0⟩⟩, ⟨400000, ⟨0, 1, 7, 0⟩⟩]).1 =
      [⟨0, some 2, some 2, some 2, none, 2⟩, ⟨300, some 7, some 7, some 7, some 7, 1⟩] ∧
    ¬ List.Chain' (fun a b => b.openP = a.close)
      (processSwapEventsChart false 5
        [⟨0, ⟨0, 1, 2, 0⟩⟩, ⟨100000, ⟨0, 0, 0, 0⟩⟩, ⟨400000, ⟨0, 1, 7, 0⟩⟩]).1 := by
  have heval : (processSwapEventsChart false 5
      [⟨0, ⟨0, 1, 2, 0⟩⟩, ⟨100000, ⟨0, 0, 0, 0⟩⟩, ⟨400000, ⟨0, 1, 7, 0⟩⟩]).1 =
      [⟨0, some 2, some 2, some 2, none, 2⟩,
        ⟨300, some 7, some 7, some 7, some 7, 1⟩] := by
    norm_num [processSwapEventsChart, processKeysChart, bucketStep, foldHLV, sortT,
      insertT, uniqKeys, groupedOf, bucketKeyMs, calculatePrice, jsVal, Int.fdiv,
      List.cons_ne_nil]
  refine ⟨heval, ?_⟩
  rw [heval]
  intro hch
  have hrel := (List.chain'_cons.mp hch).1
  simp at hrel

theorem bucketStep_bounded (inv : Bool) (prev : Option ℚ) (k : ℤ)
    (ts : List Trade) (hne : ts ≠ [])
    (hdef : ∀ t ∈ ts, (calculatePrice inv t.data).isSome) :
    candleBounded (bucketStep inv prev k ts).1 := by
  obtain ⟨o, ho⟩ : ∃ o : ℚ,
      (match prev with
        | some pc => some pc
        | none =>
            match ts.head? with
            | some t1 => calculatePrice inv t1.data
            | none => none) = some o := by
    cases prev with
    | some pc => exact ⟨pc, rfl⟩
    | none =>
        rcases ts with _ | ⟨t1, tr⟩
        · exact absurd rfl hne
        · simpa using Option.isSome_iff_exists.mp (hdef t1 (by simp))
  obtain ⟨tl, htl⟩ := Option.isSome_iff_exists.mp (List.getLast?_isSome.mpr hne)
  obtain ⟨cl, hcl⟩ :=
    Option.isSome_iff_exists.mp (hdef tl (List.mem_of_getLast?_eq_some htl))
  have hclP : cl ∈ priceList inv ts :=
    List.mem_filterMap.mpr ⟨tl, List.mem_of_getLast?_eq_some htl, hcl⟩
  refine ⟨o, (priceList inv ts).foldl max o, (priceList inv ts).foldl min o, cl,
    ?_, ?_, ?_, ?_, foldl_min_le o _, le_foldl_max o _,
    foldl_min_le_mem o hclP, mem_le_foldl_max o hclP⟩
  · show (bucketStep inv prev k ts).1.openP = some o
    simp only [bucketStep]
    exact ho
  · show (bucketStep inv prev k ts).1.high = some ((priceList inv ts).foldl max o)
    simp only [bucketStep, ho, foldHLV_defined]
  · show (bucketStep inv prev k ts).1.low = some ((priceList inv ts).foldl min o)
    simp only [bucketStep, ho, foldHLV_defined]
  · show (bucketStep inv prev k ts).1.close = some cl
    simp only [bucketStep, htl, hcl]

theorem processKeysChart_bounds (inv : Bool) (grouped : ℤ → List Trade)
    (hdef : ∀ k, ∀ t ∈ grouped k, (calculatePrice inv t.data).isSome) :
    ∀ keys : List ℤ, ∀ prev : Option ℚ,
      ∀ c ∈ (processKeysChart inv grouped prev keys).1, candleBounded c := by
  intro keys
  induction keys with
  | nil => intro prev c hc; simp [processKeysChart] at hc
  | cons k ks ih =>
      intro prev c hc
      rcases hg : grouped k with _ | ⟨t1, tr⟩
      · cases prev with
        | some pc =>
            rw [processKeysChart_cons_nil_some inv grouped pc k ks hg] at hc
            rcases List.mem_cons.mp hc with rfl | hc
            · exact ⟨pc, pc, pc, pc, rfl, rfl, rfl, rfl,
                le_refl _, le_refl _, le_refl _, le_refl _⟩
            · exact ih (some pc) c hc
        | none =>
            rw [processKeysChart_cons_nil_none inv grouped k ks hg] at hc
            exact ih none c hc
      · have hne : grouped k ≠ [] := by rw [hg]; simp
        rw [processKeysChart_cons_ne inv grouped prev k ks hne] at hc
        rcases List.mem_cons.mp hc with rfl | hc
        · exact bucketStep_bounded inv prev k (grouped k) hne (hdef k)
        · exact ih _ c hc

/-- C9 (amended): when every trade has a defined price, every produced
candle has numeric OHLC fields with `low ≤ open ≤ high` and
`low ≤ close ≤ high` — high/low being the fold of max/min over the
carried-forward open and the bucket's trade prices, and close the last
trade's price. -/
theorem ohlc_bounds (inv : Bool) (m : ℕ) (tradeEvents : List Trade)
    (h : ∀ t ∈ tradeEvents, (calculatePrice false t.data).isSome) :
    ∀ c ∈ (processSwapEventsChart inv m tradeEvents).1, candleBounded c := by
  by_cases hnil : tradeEvents = []
  · subst hnil
    intro c hc
    simp [processSwapEventsChart] at hc
  · have hout : processSwapEventsChart inv m tradeEvents =
        processKeysChart inv (groupedOf ((m : ℤ) * 60000) (sortT tradeEvents)) none
          (uniqKeys ((sortT tradeEvents).map
            (fun t => bucketKeyMs t.timestamp ((m : ℤ) * 60000)))) := by
      simp only [processSwapEventsChart, if_neg hnil]
    rw [hout]
    exact processKeysChart_bounds inv _ (groupedOf_defined h _) _ none

/-- Witness for C9's amended theorem at a single price-10 trade. -/
theorem ohlc_bounds_witness :
    (∀ t ∈ [(⟨0, ⟨0, 1, 10, 0⟩⟩ : Trade)], (calculatePrice false t.data).isSome) ∧
      candleBounded ⟨0, some 10, some 10, some 10, some 10, 1⟩ := by
  have hy : ∀ t ∈ [(⟨0, ⟨0, 1, 10, 0⟩⟩ : Trade)], (calculatePrice false t.data).isSome := by
    intro t ht
    rcases List.mem_cons.mp ht with rfl | ht
    · norm_num [calculatePrice]
    · simp at ht
  have heval : (processSwapEventsChart false 5 [⟨0, ⟨0, 1, 10, 0⟩⟩]).1 =
      [⟨0, some 10, some 10, some 10, some 10, 1⟩] := by
    norm_num [processSwapEventsChart, processKeysChart, bucketStep, foldHLV, sortT,
      insertT, uniqKeys, groupedOf, bucketKeyMs, calculatePrice, jsVal, Int.fdiv,
      List.cons_ne_nil]
  exact ⟨hy, ohlc_bounds false 5 [⟨0, ⟨0, 1, 10, 0⟩⟩] hy _ (by rw [heval]; simp)⟩

/-- C9 counterexample: a bucket whose last trade is malformed produces a
candle with `close = null`, so the OHLC bounds (`low ≤ close ≤ high` over
numeric fields) fail for that candle as the claim states them. -/
theorem ohlc_bounds_cex :
    (processSwapEventsChart false 5
        [⟨0, ⟨0, 1, 3, 0⟩⟩, ⟨100000, ⟨0, 0, 0, 0⟩⟩]).1 =
      [⟨0, some 3, some 3, some 3, none, 2⟩] ∧
    ¬ ∀ c ∈ (processSwapEventsChart false 5
        [⟨0, ⟨0, 1, 3, 0⟩⟩, ⟨100000, ⟨0, 0, 0, 0⟩⟩]).1, candleBounded c := by
  have heval : (processSwapEventsChart false 5
      [⟨0, ⟨0, 1, 3, 0⟩⟩, ⟨100000, ⟨0, 0, 0, 0⟩⟩]).1 =
      [⟨0, some 3, some 3, some 3, none, 2⟩] := by
    norm_num [processSwapEventsChart, processKeysChart, bucketStep, foldHLV, sortT,
      insertT, uniqKeys, groupedOf, bucketKeyMs, calculatePrice, jsVal, Int.fdiv,
      List.cons_ne_nil]
  refine ⟨heval, ?_⟩
  rw [heval]
  intro hall
  rcases hall ⟨0, some 3, some 3, some 3, none, 2⟩ (by simp) with
    ⟨o, hi, lo, cl, _, _, _, hclose, _⟩
  simp at hclose

/-! ### Inversion high/low swap (chart.js evolution) -/

theorem bucketStep_openP (inv : Bool) (prev : Option ℚ) (k : ℤ) (ts : List Trade) :
    (bucketStep inv prev k ts).1.openP =
      (match prev with
        | some pc => some pc
        | none =>
            match ts.head? with
            | some t1 => calculatePrice inv t1.data
            | none => none) := rfl

theorem bucketStep_close (inv : Bool) (prev : Option ℚ) (k : ℤ) (ts : List Trade) :
    (bucketStep inv prev k ts).1.close =
      (match ts.getLast? with
        | some tl => calculatePrice inv tl.data
        | none => none) := rfl

theorem bucketStep_prevOut (inv : Bool) (prev : Option ℚ) (k : ℤ) (ts : List Trade) :
    (bucketStep inv prev k ts).2.2 = (bucketStep inv prev k ts).1.close := rfl

theorem bucketStep_fields (inv : Bool) (prev : Option ℚ) (k : ℤ) (ts : List Trade)
    (o : ℚ) (ho : (bucketStep inv prev k ts).1.openP = some o)
    (tl : Trade) (htl : ts.getLast? = some tl) (cl : ℚ)
    (hcl : calculatePrice inv tl.data = some cl) :
    (bucketStep inv prev k ts).1 =
      ⟨Int.fdiv k 1000, some o, some ((priceList inv ts).foldl max o),
        some ((priceList inv ts).foldl min o), some cl, ts.length⟩ ∧
    (bucketStep inv prev k ts).2.2 = some cl := by
  have hcl' : (bucketStep inv prev k ts).1.close = some cl := by
    rw [bucketStep_close, htl]
    exact hcl
  constructor
  · have h1 : (bucketStep inv prev k ts).1 =
        ⟨Int.fdiv k 1000, (bucketStep inv prev k ts).1.openP,
          (foldHLV inv ((bucketStep inv prev k ts).1.openP,
            (bucketStep inv prev k ts).1.openP, 0) ts).1,
          (foldHLV inv ((bucketStep inv prev k ts).1.openP,
            (bucketStep inv prev k ts).1.openP, 0) ts).2.1,
          (bucketStep inv prev k ts).1.close, ts.length⟩ := rfl
    rw [h1, ho, hcl']
    simp only [foldHLV_defined]
  · rw [bucketStep_prevOut]
    exact hcl'

theorem processKeysChart_inv_swap (grouped : ℤ → List Trade)
    (hdef : ∀ k, ∀ t ∈ grouped k, (calculatePrice false t.data).isSome) :
    ∀ keys : List ℤ, ∀ pN pI : Option ℚ,
      ((pN = none ∧ pI = none) ∨
        ∃ pc : ℚ, 0 < pc ∧ pN = some pc ∧ pI = some (1 / pc)) →
      List.Forall₂ (fun (cN cI : Candle) =>
          cI.time = cN.time ∧
          ∃ o hi lo cl : ℚ,
            cN.openP = some o ∧ cN.high = some hi ∧ cN.low = some lo ∧
            cN.close = some cl ∧ cI.openP = some (1 / o) ∧
            cI.high = some (1 / lo) ∧ cI.low = some (1 / hi) ∧
            cI.close = some (1 / cl))
        (processKeysChart false grouped pN keys).1
        (processKeysChart true grouped pI keys).1 := by
  intro keys
  induction keys with
  | nil => intro pN pI _; exact List.Forall₂.nil
  | cons k ks ih =>
      intro pN pI hrel
      rcases hg : grouped k with _ | ⟨t1, tr⟩
      · rcases hrel with ⟨rfl, rfl⟩ | ⟨pc, hpc, rfl, rfl⟩
        · rw [processKeysChart_cons_nil_none false grouped k ks hg,
            processKeysChart_cons_nil_none true grouped k ks hg]
          exact ih none none (Or.inl ⟨rfl, rfl⟩)
        · rw [processKeysChart_cons_nil_some false grouped pc k ks hg,
            processKeysChart_cons_nil_some true grouped (1 / pc) k ks hg]
          refine List.Forall₂.cons ?_ (ih _ _ (Or.inr ⟨pc, hpc, rfl, rfl⟩))
          exact ⟨rfl, pc, pc, pc, pc, rfl, rfl, rfl, rfl, rfl, rfl, rfl, rfl⟩
      · have hne : grouped k ≠ [] := by rw [hg]; simp
        -- the open prices of the two runs
        obtain ⟨o, hopos, hoN, hoI⟩ : ∃ o : ℚ, 0 < o ∧
            (bucketStep false pN k (grouped k)).1.openP = some o ∧
            (bucketStep true pI k (grouped k)).1.openP = some (1 / o) := by
          rcases hrel with ⟨rfl, rfl⟩ | ⟨pc, hpc, rfl, rfl⟩
          · obtain ⟨p1, hp1⟩ := Option.isSome_iff_exists.mp
              (hdef k t1 (by rw [hg]; simp))
            refine ⟨p1, calculatePrice_false_pos hp1, ?_, ?_⟩
            · rw [bucketStep_openP, hg]
              simpa using hp1
            · rw [bucketStep_openP, hg]
              simp only [List.head?_cons]
              rw [calculatePrice_true_eq, hp1]
              rfl
          · exact ⟨pc, hpc, rfl, rfl⟩
        -- the close prices of the two runs
        obtain ⟨tl, htl⟩ := Option.isSome_iff_exists.mp (List.getLast?_isSome.mpr hne)
        obtain ⟨cl, hcl⟩ := Option.isSome_iff_exists.mp
          (hdef k tl (List.mem_of_getLast?_eq_some htl))
        have hclpos := calculatePrice_false_pos hcl
        have hclI : calculatePrice true tl.data = some (1 / cl) := by
          rw [calculatePrice_true_eq, hcl]
          rfl
        have hstepN := bucketStep_fields false pN k (grouped k) o hoN tl htl cl hcl
        have hstepI := bucketStep_fields true pI k (grouped k) (1 / o) hoI tl htl
          (1 / cl) hclI
        have hPpos : ∀ p ∈ priceList false (grouped k), 0 < p :=
          fun p hp => priceList_pos hp
        have hmax : (priceList true (grouped k)).foldl max (1 / o) =
            1 / (priceList false (grouped k)).foldl min o := by
          rw [priceList_true]
          exact foldl_max_inv_eq hopos hPpos
        have hmin : (priceList true (grouped k)).foldl min (1 / o) =
            1 / (priceList false (grouped k)).foldl max o := by
          rw [priceList_true]
          exact foldl_min_inv_eq hopos hPpos
        rw [processKeysChart_cons_ne false grouped pN k ks hne,
          processKeysChart_cons_ne true grouped pI k ks hne]
        refine List.Forall₂.cons ?_ ?_
        · rw [hstepN.1, hstepI.1]
          exact ⟨rfl, o, (priceList false (grouped k)).foldl max o,
            (priceList false (grouped k)).foldl min o, cl,
            rfl, rfl, rfl, rfl, rfl, by rw [hmax], by rw [hmin], rfl⟩
        · rw [hstepN.2, hstepI.2]
          exact ih _ _ (Or.inr ⟨cl, hclpos, rfl, rfl⟩)

/-- C2: for a trade set whose trades all have defined (hence positive)
prices, aggregating with the inversion flag set and clear produces, bucket
for bucket (same `time`), `high_inverted = 1/low_noninverted` and
`low_inverted = 1/high_noninverted`, with the open/close carry-forward
chains likewise reciprocal. -/
theorem inversion_swaps_high_low (m : ℕ) (tradeEvents : List Trade)
    (h : ∀ t ∈ tradeEvents, (calculatePrice false t.data).isSome) :
    List.Forall₂ (fun (cN cI : Candle) =>
        cI.time = cN.time ∧
        ∃ o hi lo cl : ℚ,
          cN.openP = some o ∧ cN.high = some hi ∧ cN.low = some lo ∧
          cN.close = some cl ∧ cI.openP = some (1 / o) ∧
          cI.high = some (1 / lo) ∧ cI.low = some (1 / hi) ∧
          cI.close = some (1 / cl))
      (processSwapEventsChart false m tradeEvents).1
      (processSwapEventsChart true m tradeEvents).1 := by
  by_cases hnil : tradeEvents = []
  · subst hnil
    simp only [processSwapEventsChart, if_pos rfl]
    exact List.Forall₂.nil
  · have houtN : processSwapEventsChart false m tradeEvents =
        processKeysChart false (groupedOf ((m : ℤ) * 60000) (sortT tradeEvents)) none
          (uniqKeys ((sortT tradeEvents).map
            (fun t => bucketKeyMs t.timestamp ((m : ℤ) * 60000)))) := by
      simp only [processSwapEventsChart, if_neg hnil]
    have houtI : processSwapEventsChart true m tradeEvents =
        processKeysChart true (groupedOf ((m : ℤ) * 60000) (sortT tradeEvents)) none
          (uniqKeys ((sortT tradeEvents).map
            (fun t => bucketKeyMs t.timestamp ((m : ℤ) * 60000)))) := by
      simp only [processSwapEventsChart, if_neg hnil]
    rw [houtN, houtI]
    exact processKeysChart_inv_swap _ (groupedOf_defined h _) _ none none
      (Or.inl ⟨rfl, rfl⟩)

/-- Witness for C2 at the spec's §8 scenario trades (prices 10, 12, 15 in
two 60-minute buckets): the inverted run swaps high and low reciprocally. -/
theorem inversion_swaps_high_low_witness :
    (∀ t ∈ [(⟨300000, ⟨0, 10, 100, 0⟩⟩ : Trade), ⟨2400000, ⟨5, 0, 0, 60⟩⟩],
      (calculatePrice false t.data).isSome) ∧
    List.Forall₂ (fun (cN cI : Candle) =>
        cI.time = cN.time ∧
        ∃ o hi lo cl : ℚ,
          cN.openP = some o ∧ cN.high = some hi ∧ cN.low = some lo ∧
          cN.close = some cl ∧ cI.openP = some (1 / o) ∧
          cI.high = some (1 / lo) ∧ cI.low = some (1 / hi) ∧
          cI.close = some (1 / cl))
      (processSwapEventsChart false 60
        [⟨300000, ⟨0, 10, 100, 0⟩⟩, ⟨2400000, ⟨5, 0, 0, 60⟩⟩]).1
      (processSwapEventsChart true 60
        [⟨300000, ⟨0, 10, 100, 0⟩⟩, ⟨2400000, ⟨5, 0, 0, 60⟩⟩]).1 := by
  have hy : ∀ t ∈ [(⟨300000, ⟨0, 10, 100, 0⟩⟩ : Trade), ⟨2400000, ⟨5, 0, 0, 60⟩⟩],
      (calculatePrice false t.data).isSome := by
    intro t ht
    rcases List.mem_cons.mp ht with rfl | ht
    · norm_num [calculatePrice]
    · rcases List.mem_cons.mp ht with rfl | ht
      · norm_num [calculatePrice]
      · simp at ht
  exact ⟨hy, inversion_swaps_high_low 60 _ hy⟩

/-! ### Gap-free timeline (part_003 evolution) -/

theorem timelineList_eq_cons {first last step : ℤ} (h1 : 0 < step) (h2 : first ≤ last) :
    timelineList first last step = first :: timelineList (first + step) last step := by
  rw [timelineList]
  rw [dif_pos ⟨h1, h2⟩]

theorem timelineList_eq_nil {first last step : ℤ} (h : ¬(0 < step ∧ first ≤ last)) :
    timelineList first last step = [] := by
  rw [timelineList]
  rw [dif_neg h]

theorem timelineList_head? {first last step : ℤ} (h1 : 0 < step) (h2 : first ≤ last) :
    (timelineList first last step).head? = some first := by
  rw [timelineList_eq_cons h1 h2]
  rfl

theorem timelineList_chain_aux (step : ℤ) :
    ∀ n : ℕ, ∀ first last : ℤ, (last + 1 - first).toNat ≤ n →
      List.Chain' (fun a b => b = a + step) (timelineList first last step) := by
  intro n
  induction n with
  | zero =>
      intro first last hle
      have h : ¬(0 < step ∧ first ≤ last) := by
        rintro ⟨_, h2⟩
        omega
      rw [timelineList_eq_nil h]
      exact List.chain'_nil
  | succ n ih =>
      intro first last hle
      by_cases h : 0 < step ∧ first ≤ last
      · rw [timelineList_eq_cons h.1 h.2]
        refine List.chain'_cons'.mpr ⟨?_, ih (first + step) last (by omega)⟩
        intro b hb
        by_cases h2 : first + step ≤ last
        · rw [timelineList_head? h.1 h2] at hb
          simp only [Option.mem_some_iff] at hb
          omega
        · rw [timelineList_eq_nil (fun hc => h2 hc.2)] at hb
          simp at hb
      · rw [timelineList_eq_nil h]
        exact List.chain'_nil

theorem timelineList_chain (first last step : ℤ) :
    List.Chain' (fun a b => b = a + step) (timelineList first last step) :=
  timelineList_chain_aux step (last + 1 - first).toNat first last le_rfl

theorem processTimeline3_cons_ne (inv : Bool) (grouped : ℤ → List Trade)
    (prev : Option ℚ) (time : ℤ) (rest : List ℤ) (h : grouped time ≠ []) :
    processTimeline3 inv grouped prev (time :: rest) =
      ((bucketStep inv prev time (grouped time)).1 ::
        (processTimeline3 inv grouped
          (bucketStep inv prev time (grouped time)).2.2 rest).1,
        (bucketStep inv prev time (grouped time)).2.1 ::
        (processTimeline3 inv grouped
          (bucketStep inv prev time (grouped time)).2.2 rest).2) := by
  rcases hg : grouped time with _ | ⟨t1, tr⟩
  · exact absurd hg h
  · simp only [processTimeline3, hg]

theorem processTimeline3_cons_nil_some (inv : Bool) (grouped : ℤ → List Trade)
    (pc : ℚ) (time : ℤ) (rest : List ℤ) (h : grouped time = []) :
    processTimeline3 inv grouped (some pc) (time :: rest) =
      (⟨Int.fdiv time 1000, some pc, some pc, some pc, some pc, 0⟩ ::
        (processTimeline3 inv grouped (some pc) rest).1,
        ⟨Int.fdiv time 1000, 0⟩ :: (processTimeline3 inv grouped (some pc) rest).2) := by
  simp only [processTimeline3, h]

theorem processTimeline3_times_some (inv : Bool) (grouped : ℤ → List Trade)
    (hdef : ∀ k, ∀ t ∈ grouped k, (calculatePrice inv t.data).isSome) :
    ∀ L : List ℤ, ∀ pc : ℚ,
      ((processTimeline3 inv grouped (some pc) L).1.map (fun c => c.time)) =
        L.map (fun x => Int.fdiv x 1000) := by
  intro L
  induction L with
  | nil => intro pc; simp [processTimeline3]
  | cons time rest ih =>
      intro pc
      rcases hg : grouped time with _ | ⟨t1, tr⟩
      · rw [processTimeline3_cons_nil_some inv grouped pc time rest hg]
        simp only [List.map_cons, List.cons.injEq]
        exact ⟨by first | rfl | trivial, ih pc⟩
      · have hne : grouped time ≠ [] := by rw [hg]; simp
        rw [processTimeline3_cons_ne inv grouped (some pc) time rest hne]
        obtain ⟨cl, hclprev, _⟩ := bucketStep_close_defined hdef hne (some pc)
        rw [hclprev]
        simp only [List.map_cons, List.cons.injEq]
        exact ⟨by first | rfl | trivial, ih cl⟩

/-- C1 (amended): when every trade has a defined price (and there is at
least one trade), the `part_003` aggregation emits exactly one candle per
bucket key from the first trade's bucket to `now`'s bucket, stepping by the
interval width: the candle `time`s are precisely the enumerated timeline
(in chart seconds) and consecutive times differ by exactly `60·m`
seconds — no gaps anywhere. -/
theorem gap_free_timeline (inv : Bool) (m : ℕ) (now : ℤ) (tradeEvents : List Trade)
    (t0 : Trade) (rest0 : List Trade) (hsort : sortT tradeEvents = t0 :: rest0)
    (hdefs : ∀ t ∈ tradeEvents, (calculatePrice false t.data).isSome) :
    (processSwapEvents3 inv m now tradeEvents).1.map (fun c => c.time) =
      (timelineList (bucketKeyMs t0.timestamp ((m : ℤ) * 60000))
        (bucketKeyMs now ((m : ℤ) * 60000)) ((m : ℤ) * 60000)).map
        (fun x => Int.fdiv x 1000) ∧
    List.Chain' (fun a b : ℤ => b = a + 60 * (m : ℤ))
      ((processSwapEvents3 inv m now tradeEvents).1.map (fun c => c.time)) := by
  have hnil : tradeEvents ≠ [] := by
    intro hc
    rw [hc] at hsort
    exact List.cons_ne_nil t0 rest0 hsort.symm
  set ims : ℤ := (m : ℤ) * 60000 with hims
  have hdefg : ∀ k, ∀ t ∈ groupedOf ims (t0 :: rest0) k,
      (calculatePrice inv t.data).isSome := by
    rw [← hsort]
    exact groupedOf_defined hdefs ims
  have hout : processSwapEvents3 inv m now tradeEvents =
      processTimeline3 inv (groupedOf ims (t0 :: rest0)) none
        (timelineList (bucketKeyMs t0.timestamp ims) (bucketKeyMs now ims) ims) := by
    simp only [processSwapEvents3, if_neg hnil, hsort]
  have hmain : (processSwapEvents3 inv m now tradeEvents).1.map (fun c => c.time) =
      (timelineList (bucketKeyMs t0.timestamp ims) (bucketKeyMs now ims) ims).map
        (fun x => Int.fdiv x 1000) := by
    rw [hout]
    by_cases hcond : 0 < ims ∧ bucketKeyMs t0.timestamp ims ≤ bucketKeyMs now ims
    · rw [timelineList_eq_cons hcond.1 hcond.2]
      have hmem : t0 ∈ groupedOf ims (t0 :: rest0) (bucketKeyMs t0.timestamp ims) := by
        apply List.mem_filter.mpr
        refine ⟨List.mem_cons_self t0 rest0, ?_⟩
        simp
      have hne : groupedOf ims (t0 :: rest0) (bucketKeyMs t0.timestamp ims) ≠ [] := by
        intro hc
        rw [hc] at hmem
        simp at hmem
      rw [processTimeline3_cons_ne inv _ none _ _ hne]
      obtain ⟨cl, hclprev, _⟩ := bucketStep_close_defined hdefg hne none
      rw [hclprev]
      simp only [List.map_cons, List.cons.injEq]
      exact ⟨by first | rfl | trivial, processTimeline3_times_some inv _ hdefg _ cl⟩
    · rw [timelineList_eq_nil hcond]
      simp [processTimeline3]
  refine ⟨hmain, ?_⟩
  rw [hmain]
  refine List.chain'_map_of_chain' _ ?_ (timelineList_chain _ _ ims)
  intro a b hab
  subst hab
  have h1000 : (1000 : ℤ) ≠ 0 := by norm_num
  have hrw : a + ims = a + (60 * (m : ℤ)) * 1000 := by
    rw [hims]
    ring
  rw [hrw, Int.fdiv_eq_ediv _ (by norm_num : (0:ℤ) ≤ 1000),
    Int.fdiv_eq_ediv _ (by norm_num : (0:ℤ) ≤ 1000),
    Int.add_mul_ediv_right a (60 * (m : ℤ)) h1000]

/-- Witness for C1's amended theorem: a single price-defined trade at epoch
0 with a 5-minute interval and `now` one bucket later. -/
theorem gap_free_timeline_witness :
    sortT [(⟨0, ⟨0, 1, 10, 0⟩⟩ : Trade)] = [⟨0, ⟨0, 1, 10, 0⟩⟩] ∧
    ((processSwapEvents3 false 5 400000 [⟨0, ⟨0, 1, 10, 0⟩⟩]).1.map (fun c => c.time) =
      (timelineList (bucketKeyMs (0 : ℤ) ((5 : ℕ) * 60000 : ℤ))
        (bucketKeyMs 400000 ((5 : ℕ) * 60000 : ℤ)) ((5 : ℕ) * 60000 : ℤ)).map
        (fun x => Int.fdiv x 1000) ∧
    List.Chain' (fun a b : ℤ => b = a + 60 * ((5 : ℕ) : ℤ))
      ((processSwapEvents3 false 5 400000 [⟨0, ⟨0, 1, 10, 0⟩⟩]).1.map (fun c => c.time))) := by
  have hy : ∀ t ∈ [(⟨0, ⟨0, 1, 10, 0⟩⟩ : Trade)], (calculatePrice false t.data).isSome := by
    intro t ht
    rcases List.mem_cons.mp ht with rfl | ht
    · norm_num [calculatePrice]
    · simp at ht
  exact ⟨rfl, gap_free_timeline false 5 400000 [⟨0, ⟨0, 1, 10, 0⟩⟩]
    ⟨0, ⟨0, 1, 10, 0⟩⟩ [] rfl hy⟩

theorem timelineList_cex_eval : timelineList 0 600000 300000 = [0, 300000, 600000] := by
  rw [timelineList_eq_cons (by norm_num) (by norm_num)]
  rw [timelineList_eq_cons (by norm_num) (by norm_num)]
  rw [timelineList_eq_cons (by norm_num) (by norm_num)]
  rw [timelineList_eq_nil (by norm_num)]
  norm_num

/-- C1 counterexample: with one price-defined trade present (as the claim's
hypothesis requires) but malformed trades occupying the earliest buckets,
`part_003` emits times `[0, 600]` — the bucket at 300 s between the first
trade's bucket (0) and `now`'s bucket (600) is omitted, so the sequence has
a gap and consecutive times differ by 600 s, not the 300 s interval width. -/
theorem gap_free_timeline_cex :
    (processSwapEvents3 false 5 700000
        [⟨0, ⟨0, 0, 0, 0⟩⟩, ⟨600000, ⟨0, 0, 0, 0⟩⟩, ⟨660000, ⟨0, 2, 6, 0⟩⟩]).1.map
        (fun c => c.time) = [0, 600] ∧
    (calculatePrice false (⟨0, 2, 6, 0⟩ : SwapData)).isSome = true ∧
    bucketKeyMs 0 ((5 : ℕ) * 60000 : ℤ) = 0 ∧
    bucketKeyMs 700000 ((5 : ℕ) * 60000 : ℤ) = 600000 ∧
    (timelineList 0 600000 300000).map (fun x => Int.fdiv x 1000) = [0, 300, 600] ∧
    ¬ List.Chain' (fun a b : ℤ => b = a + 60 * 5) [(0 : ℤ), 600] := by
  refine ⟨?_, by norm_num [calculatePrice], by decide, by decide, ?_, ?_⟩
  · norm_num [processSwapEvents3, processTimeline3, bucketStep, foldHLV, sortT,
      insertT, groupedOf, bucketKeyMs, calculatePrice, jsVal, Int.fdiv,
      timelineList_cex_eval, List.cons_ne_nil, List.find?]
  · rw [timelineList_cex_eval]
    decide
  · intro hch
    have := (List.chain'_cons.mp hch).1
    omega

end DexData
